import Mathlib

set_option maxRecDepth 8000

/-! Basic Python-string helpers over `List Char`. -/

/-- If `p` is a prefix of `s`, return the remainder of `s` after `p`. -/
def dropPre : List Char → List Char → Option (List Char)
  | [], s => some s
  | _ :: _, [] => none
  | p :: ps, c :: cs => if p = c then dropPre ps cs else none

/-- ASCII whitespace recognized by Python's `str.strip` and regex `\s`. -/
def isPySpace (c : Char) : Bool :=
  c = ' ' || c = '\t' || c = '\n' || c = '\r' || c = '\x0b' || c = '\x0c'

/-- Python `str.strip()` (ASCII whitespace). -/
def pyStrip (s : List Char) : List Char :=
  ((s.dropWhile isPySpace).reverse.dropWhile isPySpace).reverse

/-- Python `str.upper()` (ASCII letters). -/
def pyUpper (s : List Char) : List Char := s.map Char.toUpper

/-- Python `needle in haystack` substring test. -/
def containsTok (pat : List Char) : List Char → Bool
  | [] => (dropPre pat []).isSome
  | c :: cs => (dropPre pat (c :: cs)).isSome || containsTok pat cs

/-- The literal document-end marker. -/
def endDocMarker : List Char := "\\end\x7bdocument\x7d".toList

/-- `re.sub(r'\\end{document}.*', '', text, flags=re.DOTALL)`: with DOTALL the
single match runs to the end of the string, so this truncates at the first
occurrence of the marker. -/
def truncEndDoc : List Char → List Char
  | [] => []
  | c :: cs => if (dropPre endDocMarker (c :: cs)).isSome then [] else c :: truncEndDoc cs

/-! The labeled-section marker regexes.  The section pattern is
`\\section\*{(\[.*?\])}`, the atomic pattern `\\section\*{(\[atomic_.*?])}`:
a lazy non-newline interior ending at the first `]` that is immediately
followed by `}`. -/

/-- Scan the lazy interior `.*?` of the label: succeed at the first `]`
immediately followed by `}` (returning the interior and the text after the
`}`), fail at a newline or the end of input. -/
def scanLabelEnd : List Char → Option (List Char × List Char)
  | [] => none
  | c :: cs =>
    if c = ']' ∧ cs.head? = some '\x7d' then some ([], cs.tail)
    else if c = '\n' then none
    else (scanLabelEnd cs).map fun p => (c :: p.1, p.2)

def sectionMarkPre : List Char := "\\section*\x7b[".toList

def atomicMarkPre : List Char := "\\section*\x7b[atomic_".toList

/-- Match of `\\section\*{(\[.*?\])}` at the start of `s`; returns the captured
group (brackets included) and the rest after the match. -/
def matchSection (s : List Char) : Option (List Char × List Char) :=
  (dropPre sectionMarkPre s).bind fun u =>
    (scanLabelEnd u).map fun p => ('[' :: (p.1 ++ [']']), p.2)

/-- Match of `\\section\*{(\[atomic_.*?])}` at the start of `s`. -/
def matchAtomic (s : List Char) : Option (List Char × List Char) :=
  (dropPre atomicMarkPre s).bind fun u =>
    (scanLabelEnd u).map fun p => ("[atomic_".toList ++ (p.1 ++ [']']), p.2)

/-- `re.split` with one capture group: the flat alternating list
`[piece, group, piece, group, …, piece]`.  Fuel-driven scan; the wrapper
passes the input length as fuel, which suffices because every match consumes
at least one character. -/
def splitAux (m : List Char → Option (List Char × List Char)) :
    Nat → List Char → List Char → List (List Char)
  | 0, acc, rest => [acc.reverse ++ rest]
  | _ + 1, acc, [] => [acc.reverse]
  | fuel + 1, acc, c :: cs =>
    match m (c :: cs) with
    | some (l, rest) => acc.reverse :: l :: splitAux m fuel [] rest
    | none => splitAux m fuel (c :: acc) cs

def pySplit (m : List Char → Option (List Char × List Char)) (s : List Char) :
    List (List Char) :=
  splitAux m s.length [] s

/-- `re.split(r"\\section\*{(\[.*?\])}", text)`. -/
def sectionSplit (s : List Char) : List (List Char) := pySplit matchSection s

/-- `re.split(r"\\section\*{(\[atomic_.*?])}", text)`. -/
def atomicSplit (s : List Char) : List (List Char) := pySplit matchAtomic s

/-- Does the matcher succeed at some position (suffix) of `s`? -/
def hasMatch (m : List Char → Option (List Char × List Char)) : List Char → Bool
  | [] => (m []).isSome
  | c :: cs => (m (c :: cs)).isSome || hasMatch m cs

/-! The divider-classification searches. -/

/-- Match of `\[SECTION_\d+\]` at the start of `s`. -/
def matchSecNumAt (s : List Char) : Bool :=
  match dropPre "[SECTION_".toList s with
  | none => false
  | some r =>
    let ds := r.takeWhile Char.isDigit
    decide (0 < ds.length) && decide ((r.drop ds.length).head? = some ']')

/-- `re.search(r'\[SECTION_\d+\]', s)` as a Bool. -/
def containsSecNum : List Char → Bool
  | [] => false
  | c :: cs => matchSecNumAt (c :: cs) || containsSecNum cs

/-- Regex word character `\w` (ASCII). -/
def isWordChar (c : Char) : Bool := c.isAlphanum || c = '_'

/-- Match of `\bW\b` at the start of `s`, where `prevOk` records that the
previous character (if any) was not a word character. -/
def wordAt (w : List Char) (prevOk : Bool) (s : List Char) : Bool :=
  prevOk &&
    match dropPre w s with
    | none => false
    | some r =>
      match r.head? with
      | none => true
      | some c => !isWordChar c

def searchWord (w : List Char) : Bool → List Char → Bool
  | _, [] => false
  | prevOk, c :: cs => wordAt w prevOk (c :: cs) || searchWord w (!isWordChar c) cs

/-- `re.search(r'\b(PROMPT|RESPONSE)\b', s)` as a Bool. -/
def hasPromptOrResponse (s : List Char) : Bool :=
  searchWord "PROMPT".toList true s || searchWord "RESPONSE".toList true s

/-! Decimal representation of the Python loop indices (`f"{i}"`). -/

def digitChar (n : Nat) : Char :=
  if n = 0 then '0' else if n = 1 then '1' else if n = 2 then '2'
  else if n = 3 then '3' else if n = 4 then '4' else if n = 5 then '5'
  else if n = 6 then '6' else if n = 7 then '7' else if n = 8 then '8' else '9'

def natDigitsAux : Nat → Nat → List Char
  | 0, _ => []
  | fuel + 1, n =>
    if n < 10 then [digitChar n] else natDigitsAux fuel (n / 10) ++ [digitChar (n % 10)]

/-- Decimal representation of `n`, most significant digit first. -/
def decRepr (n : Nat) : List Char := natDigitsAux (n + 1) n

def digitVal (c : Char) : Nat := c.toNat - 48

def digitsToNat (s : List Char) : Nat := s.foldl (fun a c => 10 * a + digitVal c) 0

/-! The notebook data model. -/

structure Cell where
  cell_type : List Char
  source : List (List Char)
  id : List Char
deriving DecidableEq

structure Notebook where
  cells : List Cell
  nbformat : Nat
  nbformat_minor : Nat
deriving DecidableEq

def mdCell (src id : List Char) : Cell := ⟨"markdown".toList, [src], id⟩

def metadataText : List Char :=
  "# Metadata\n\n**Topic:** - Mathematics\n\n**Subtopic:** - \n\n**Difficulty:** - \n\n**Explanation:** -  \n\n**Sections:** - \n\n**Prompt:** - \t\n".toList

def metadataCell : Cell := mdCell metadataText "metadata_cell".toList

def finalSepCell : Cell := mdCell "---".toList "final_separator".toList

/-! The final cleanup pass: `text.replace("\\\\", "\\")` then the
document-end truncation, applied to every markdown cell's source. -/

/-- Python `str.replace("\\\\", "\\")`: collapse each doubled backslash
(leftmost, non-overlapping) to a single backslash. -/
def collapseBS : List Char → List Char
  | [] => []
  | [c] => [c]
  | c :: d :: cs =>
    if c = '\\' ∧ d = '\\' then '\\' :: collapseBS cs else c :: collapseBS (d :: cs)

def cleanupText (t : List Char) : List Char := truncEndDoc (collapseBS t)

def cleanupCell (c : Cell) : Cell :=
  if c.cell_type = "markdown".toList then
    { c with source := c.source.map cleanupText }
  else c

/-! Divider cells and per-section content processing. -/

def sectionDividerCells (i : Nat) (title : List Char) : List Cell :=
  if containsSecNum (pyUpper title) then
    [mdCell "---".toList ("separator_before_".toList ++ title)]
  else if hasPromptOrResponse (pyUpper title) then
    [mdCell "---".toList ("separator_".toList ++ decRepr i)]
  else []

/-- `sections[i+1].strip()`, then the document-end truncation, repeated once
more for RESPONSE-titled sections. -/
def processedContent (title raw : List Char) : List Char :=
  if containsTok "RESPONSE".toList (pyUpper title) then truncEndDoc (truncEndDoc (pyStrip raw))
  else truncEndDoc (pyStrip raw)

/-! The display-math re-wrap `re.sub(r'\\\[\s*(.*?)\s*\\\]', r'\\[\n\1\n\\]', …)`
applied to atomic content.  After the literal `\[`, the engine tries the
greedy `\s*` from its longest run down, inside that the lazy `(.*?)` from
length 0 up, inside that the trailing greedy `\s*` from its longest run down,
and finally the literal `\]`; the first success in that order is the match. -/

def wsRunLen : List Char → Nat
  | [] => 0
  | c :: cs => if isPySpace c then wsRunLen cs + 1 else 0

def nonNlRunLen : List Char → Nat
  | [] => 0
  | c :: cs => if c = '\n' then 0 else nonNlRunLen cs + 1

/-- Trailing `\s*` then `\]`: try `b` whitespace characters, counting down. -/
def tryB : Nat → List Char → Option Nat
  | 0, v => if (dropPre "\\]".toList v).isSome then some 0 else none
  | b + 1, v => if (dropPre "\\]".toList (v.drop (b + 1))).isSome then some (b + 1) else tryB b v

/-- Lazy `(.*?)`: try group length `g` counting up (at most the non-newline
run), with the trailing `\s*\]` searched greedily for each `g`. -/
def tryG : Nat → Nat → List Char → Option (Nat × Nat)
  | 0, _, _ => none
  | gas + 1, g, ua =>
    let v := ua.drop g
    match tryB (wsRunLen v) v with
    | some b => some (g, b)
    | none => tryG gas (g + 1) ua

/-- Leading greedy `\s*`: try `a` whitespace characters counting down. -/
def tryA : Nat → List Char → Option (Nat × Nat × Nat)
  | 0, u =>
    (tryG (nonNlRunLen u + 1) 0 u).map fun gb => (0, gb.1, gb.2)
  | a + 1, u =>
    match tryG (nonNlRunLen (u.drop (a + 1)) + 1) 0 (u.drop (a + 1)) with
    | some gb => some (a + 1, gb.1, gb.2)
    | none => tryA a u

/-- Match of `\\\[\s*(.*?)\s*\\\]` at the start of `s`: the captured group and
the rest after the match. -/
def matchRewrap (s : List Char) : Option (List Char × List Char) :=
  match dropPre "\\[".toList s with
  | none => none
  | some u =>
    match tryA (wsRunLen u) u with
    | some (a, g, b) => some ((u.drop a).take g, u.drop (a + g + b + 2))
    | none => none

def rewrapAux : Nat → List Char → List Char
  | 0, s => s
  | _ + 1, [] => []
  | fuel + 1, c :: cs =>
    match matchRewrap (c :: cs) with
    | some (g, rest) => "\\[\n".toList ++ g ++ "\n\\]".toList ++ rewrapAux fuel rest
    | none => c :: rewrapAux fuel cs

def rewrapDisplayMath (s : List Char) : List Char := rewrapAux s.length s

/-- `atomic_content.replace("\n", "  \n")`. -/
def nlToHardBreak : List Char → List Char
  | [] => []
  | c :: cs =>
    if c = '\n' then ' ' :: ' ' :: '\n' :: nlToHardBreak cs else c :: nlToHardBreak cs

/-- The transformations applied to one atomic part's content. -/
def atomicTransform (raw : List Char) : List Char :=
  nlToHardBreak (rewrapDisplayMath (truncEndDoc (pyStrip raw)))

/-! Assembling the notebook. -/

/-- Group the tail of a one-group `re.split` result into (label, content)
pairs; `none` models the `IndexError` raised on an unpaired trailing label. -/
def toPairs : List (List Char) → Option (List (List Char × List Char))
  | [] => some []
  | [_] => none
  | a :: b :: rest => (toPairs rest).map fun l => (a, b) :: l

def atomicCellsOf (i : Nat) : Nat → List (List Char × List Char) → List Cell
  | _, [] => []
  | j, (ti, rc) :: rest =>
    mdCell ("**".toList ++ ti ++ "**\n\n".toList ++ atomicTransform rc)
        (ti ++ "_".toList ++ decRepr i ++ "_".toList ++ decRepr j)
      :: atomicCellsOf i (j + 2) rest

/-- The cells appended for the section pair at Python loop index `i`. -/
def pairCells (i : Nat) (title raw : List Char) : Option (List Cell) :=
  let content := processedContent title raw
  let base := sectionDividerCells i title ++
    [mdCell ("**".toList ++ title ++ "**\n\n".toList ++ content)
      ("section_".toList ++ decRepr i)]
  let parts := atomicSplit content
  if 1 < parts.length then
    match toPairs (parts.drop 1) with
    | none => none
    | some aps => some (base ++ atomicCellsOf i 1 aps)
  else some base

def processPairs : Nat → List (List Char × List Char) → Option (List Cell)
  | _, [] => some []
  | i, (t, r) :: rest =>
    match pairCells i t r, processPairs (i + 2) rest with
    | some cs, some rest' => some (cs ++ rest')
    | _, _ => none

/-- The structuring pipeline `parse_input_to_notebook`; `none` models an
uncaught `IndexError` (unpaired label after a split). -/
def parse_input_to_notebook (text : List Char) : Option Notebook :=
  let sections := sectionSplit (truncEndDoc text)
  match toPairs (sections.drop 1) with
  | none => none
  | some prs =>
    match processPairs 1 prs with
    | none => none
    | some cells =>
      some ⟨(metadataCell :: cells ++ [finalSepCell]).map cleanupCell, 4, 5⟩

/-- The (label, content) pairs the pipeline iterates over for input `t`. -/
def parsePairs (t : List Char) : List (List Char × List Char) :=
  (toPairs ((sectionSplit (truncEndDoc t)).drop 1)).getD []

/-! `perform_substitutions`: seven ordered literal regex substitutions. -/

/-- `re.sub` with a literal pattern and literal replacement: leftmost,
non-overlapping, all occurrences. -/
def replaceAllAux (pat repl : List Char) : Nat → List Char → List Char
  | 0, s => s
  | _ + 1, [] => []
  | fuel + 1, c :: cs =>
    match dropPre pat (c :: cs) with
    | some rest => repl ++ replaceAllAux pat repl fuel rest
    | none => c :: replaceAllAux pat repl fuel cs

def replaceAll (pat repl s : List Char) : List Char := replaceAllAux pat repl s.length s

/-- The seven substitutions, with the regex patterns and replacement templates
decoded to the literal strings they denote. -/
def substitutionsList : List (List Char × List Char) :=
  [("\\\\".toList, "\\newline".toList),
   ("\\frac".toList, "\\\\frac".toList),
   ("\\right".toList, "\\\\right".toList),
   ("\\rfloor".toList, "\\\\rfloor".toList),
   ("\\begin".toList, "\\\\begin".toList),
   ("\\theta".toList, "\\\\theta".toList),
   ("\\_".toList, "_".toList)]

def perform_substitutions (input_text : List Char) : List Char :=
  substitutionsList.foldl (fun acc pr => replaceAll pr.1 pr.2 acc) input_text

/-! `escape_latex_delimiters_in_notebook`: the four substitutions
`re.sub(r'\\\(', r'\\\(', …)` and friends.  The replacement template `\\\(`
denotes the three-character string `\\(` (the template escape `\\` yields one
backslash and the unknown escape `\(` is kept verbatim), so each substitution
rewrites the two-character delimiter to a backslash-doubled form. -/

def delimiterSubsList : List (List Char × List Char) :=
  [("\\(".toList, "\\\\(".toList),
   ("\\)".toList, "\\\\)".toList),
   ("\\[".toList, "\\\\[".toList),
   ("\\]".toList, "\\\\]".toList)]

def escapeCellText (t : List Char) : List Char :=
  delimiterSubsList.foldl (fun acc pr => replaceAll pr.1 pr.2 acc) t

def escape_latex_delimiters_in_notebook (nb : Notebook) : Notebook :=
  { nb with
    cells := nb.cells.map fun c =>
      if c.cell_type = "markdown".toList then
        { c with source := c.source.map escapeCellText }
      else c }

/-! The delimiter pipeline `convert_latex_delimiters`.  The environment
patterns are built by interpolating the raw environment name into the regex
text, so in the starred names the `*` is a regex quantifier on the preceding
letter, never a literal star: the `equation*` pass matches `\begin{equatio}`,
`\begin{equation}`, `\begin{equationn...}` (with independent repeat counts on
the begin and end side) and never the literal `\begin{equation*}`. -/

/-- Matcher for a literal token: the rest of `s` after the token. -/
def litTok (tok : List Char) (s : List Char) : Option (List Char) := dropPre tok s

/-- Interpret a trailing `*` of an interpolated environment name as a regex
quantifier: the literal prefix and the repeatable character. -/
def envNameSplit (env : List Char) : List Char × Option Char :=
  match env.reverse with
  | '*' :: c :: rest => (rest.reverse, some c)
  | _ => (env, none)

/-- Matcher for `pre` + env-name-pattern + `}` at the start of `s`: the
literal prefix, then (for starred names) a maximal run of the repeatable
character, then the closing brace. -/
def matchEnvTok (pre env : List Char) (s : List Char) : Option (List Char) :=
  match dropPre (pre ++ (envNameSplit env).1) s with
  | none => none
  | some r =>
    match (match (envNameSplit env).2 with
           | none => r
           | some rep => r.drop ((r.takeWhile (fun d => d = rep)).length)) with
    | '\x7d' :: rest => some rest
    | _ => none

/-- The `\begin{env}` side of the display-environment pattern. -/
def envOpenM (env : List Char) : List Char → Option (List Char) :=
  matchEnvTok "\\begin\x7b".toList env

/-- The `\end{env}` side of the display-environment pattern. -/
def envCloseM (env : List Char) : List Char → Option (List Char) :=
  matchEnvTok "\\end\x7b".toList env

/-- Lazy scan to the first position where the close matcher succeeds;
characters crossed must not be newlines unless `allowNl` is set. -/
def scanUntil (closeM : List Char → Option (List Char)) (allowNl : Bool) :
    List Char → Option (List Char × List Char)
  | [] => none
  | c :: cs =>
    match closeM (c :: cs) with
    | some rest => some ([], rest)
    | none =>
      if allowNl = false ∧ c = '\n' then none
      else (scanUntil closeM allowNl cs).map fun p => (c :: p.1, p.2)

/-- `re.subn` for a pattern `open…lazy-interior…close` with wrap-replacement:
returns the new text and the number of matches replaced. -/
def subnAux (openM closeM : List Char → Option (List Char)) (lw rw : List Char)
    (allowNl : Bool) : Nat → List Char → List Char × Nat
  | 0, s => (s, 0)
  | _ + 1, [] => ([], 0)
  | fuel + 1, c :: cs =>
    match openM (c :: cs) with
    | some afterOpen =>
      match scanUntil closeM allowNl afterOpen with
      | some (interior, rest) =>
        let pr := subnAux openM closeM lw rw allowNl fuel rest
        (lw ++ interior ++ rw ++ pr.1, pr.2 + 1)
      | none =>
        let pr := subnAux openM closeM lw rw allowNl fuel cs
        (c :: pr.1, pr.2)
    | none =>
      let pr := subnAux openM closeM lw rw allowNl fuel cs
      (c :: pr.1, pr.2)

def pySubn (openM closeM : List Char → Option (List Char)) (lw rw : List Char)
    (allowNl : Bool) (s : List Char) : List Char × Nat :=
  subnAux openM closeM lw rw allowNl s.length s

/-- One `convert_and_count` pass: update the running text and total only when
the pass replaced at least one match. -/
def pySubnStep (openM closeM : List Char → Option (List Char)) (lw rw : List Char)
    (allowNl : Bool) (st : List Char × Nat) : List Char × Nat :=
  let pr := pySubn openM closeM lw rw allowNl st.1
  if 0 < pr.2 then (pr.1, st.2 + pr.2) else (st.1, st.2)

def displayEnvs : List (List Char) :=
  ["equation*".toList, "equation".toList, "align*".toList, "align".toList,
   "gather*".toList, "gather".toList, "multline*".toList, "multline".toList]

def convert_latex_delimiters (text : List Char) : List Char × Nat :=
  let st := pySubnStep (litTok "\\[".toList) (litTok "\\]".toList)
    "$$".toList "$$".toList true (text, 0)
  let st := displayEnvs.foldl
    (fun st env => pySubnStep (envOpenM env) (envCloseM env)
      "$$".toList "$$".toList true st) st
  let st := pySubnStep (litTok "\\(".toList) (litTok "\\)".toList)
    "$".toList "$".toList false st
  pySubnStep (litTok "\\ensuremath\x7b".toList) (litTok "\x7d".toList)
    "$".toList "$".toList false st

/-! Lemmas about the marker matchers. -/

theorem dropPre_eq_some_iff : ∀ (p s r : List Char), dropPre p s = some r ↔ s = p ++ r := by
  intro p
  induction p with
  | nil => intro s r; simp [dropPre]
  | cons a ps ih =>
    intro s r
    cases s with
    | nil => simp [dropPre]
    | cons c cs =>
      simp only [dropPre, List.cons_append]
      by_cases h : a = c
      · subst h
        simp [ih]
      · simp only [if_neg h]
        constructor
        · intro hc; cases hc
        · intro hc
          exact absurd (List.head_eq_of_cons_eq hc).symm h

theorem scanLabelEnd_append :
    ∀ (s i r : List Char), scanLabelEnd s = some (i, r) →
      ∀ e, scanLabelEnd (s ++ e) = some (i, r ++ e) := by
  intro s
  induction s with
  | nil => intro i r h; cases h
  | cons c cs ih =>
    intro i r h e
    rw [List.cons_append]
    rw [scanLabelEnd] at h
    by_cases h1 : c = ']' ∧ cs.head? = some '\x7d'
    · rw [if_pos h1] at h
      simp only [Option.some.injEq, Prod.mk.injEq] at h
      obtain ⟨rfl, rfl⟩ := h
      obtain ⟨d, cs', rfl⟩ : ∃ d cs', cs = d :: cs' := by
        cases cs with
        | nil => simp at h1
        | cons d cs' => exact ⟨d, cs', rfl⟩
      have hd : d = '\x7d' := by simpa using h1.2
      subst hd
      rw [scanLabelEnd, if_pos ⟨h1.1, by simp⟩]
      simp
    · rw [if_neg h1] at h
      by_cases h2 : c = '\n'
      · rw [if_pos h2] at h; cases h
      · rw [if_neg h2] at h
        simp only [Option.map_eq_some'] at h
        obtain ⟨⟨i', r'⟩, hp, hir⟩ := h
        simp only [Prod.mk.injEq] at hir
        obtain ⟨rfl, rfl⟩ := hir
        rw [scanLabelEnd, if_neg ?hne, if_neg h2, ih i' r' hp e]
        · rfl
        case hne =>
          intro hcontra
          apply h1
          refine ⟨hcontra.1, ?_⟩
          cases cs with
          | nil => cases hp
          | cons d cs' => simpa using hcontra.2

theorem scanLabelEnd_length :
    ∀ (s i r : List Char), scanLabelEnd s = some (i, r) →
      s.length = i.length + 2 + r.length := by
  intro s
  induction s with
  | nil => intro i r h; cases h
  | cons c cs ih =>
    intro i r h
    rw [scanLabelEnd] at h
    by_cases h1 : c = ']' ∧ cs.head? = some '\x7d'
    · rw [if_pos h1] at h
      simp only [Option.some.injEq, Prod.mk.injEq] at h
      obtain ⟨rfl, rfl⟩ := h
      obtain ⟨d, cs', rfl⟩ : ∃ d cs', cs = d :: cs' := by
        cases cs with
        | nil => simp at h1
        | cons d cs' => exact ⟨d, cs', rfl⟩
      simp
      omega
    · rw [if_neg h1] at h
      by_cases h2 : c = '\n'
      · rw [if_pos h2] at h; cases h
      · rw [if_neg h2] at h
        simp only [Option.map_eq_some'] at h
        obtain ⟨⟨i', r'⟩, hp, hir⟩ := h
        simp only [Prod.mk.injEq] at hir
        obtain ⟨rfl, rfl⟩ := hir
        have := ih i' r' hp
        simp [this]
        omega

theorem matchSection_unfold :
    ∀ (s l r u : List Char), dropPre sectionMarkPre s = some u →
      (matchSection s = some (l, r) ↔
        ∃ i, scanLabelEnd u = some (i, r) ∧ l = '[' :: (i ++ [']'])) := by
  intro s l r u hd
  rw [matchSection, hd]
  simp only [Option.some_bind, Option.map_eq_some', Prod.mk.injEq]
  constructor
  · rintro ⟨⟨i, rest⟩, hp, hl, hr⟩
    obtain rfl : rest = r := hr
    exact ⟨i, hp, hl.symm⟩
  · rintro ⟨i, hp, hl⟩
    exact ⟨(i, r), hp, hl.symm, rfl⟩

theorem matchAtomic_unfold :
    ∀ (s l r u : List Char), dropPre atomicMarkPre s = some u →
      (matchAtomic s = some (l, r) ↔
        ∃ i, scanLabelEnd u = some (i, r) ∧ l = "[atomic_".toList ++ (i ++ [']'])) := by
  intro s l r u hd
  rw [matchAtomic, hd]
  simp only [Option.some_bind, Option.map_eq_some', Prod.mk.injEq]
  constructor
  · rintro ⟨⟨i, rest⟩, hp, hl, hr⟩
    obtain rfl : rest = r := hr
    exact ⟨i, hp, hl.symm⟩
  · rintro ⟨i, hp, hl⟩
    exact ⟨(i, r), hp, hl.symm, rfl⟩

theorem matchSection_elim :
    ∀ (s l r : List Char), matchSection s = some (l, r) →
      ∃ u i, dropPre sectionMarkPre s = some u ∧ scanLabelEnd u = some (i, r) ∧
        l = '[' :: (i ++ [']']) := by
  intro s l r h
  rw [matchSection] at h
  cases hd : dropPre sectionMarkPre s with
  | none => rw [hd] at h; cases h
  | some u =>
    rw [hd] at h
    simp only [Option.some_bind, Option.map_eq_some', Prod.mk.injEq] at h
    obtain ⟨⟨i, rest⟩, hp, hl, hr⟩ := h
    obtain rfl : rest = r := hr
    exact ⟨u, i, rfl, hp, hl.symm⟩

theorem matchAtomic_elim :
    ∀ (s l r : List Char), matchAtomic s = some (l, r) →
      ∃ u i, dropPre atomicMarkPre s = some u ∧ scanLabelEnd u = some (i, r) ∧
        l = "[atomic_".toList ++ (i ++ [']']) := by
  intro s l r h
  rw [matchAtomic] at h
  cases hd : dropPre atomicMarkPre s with
  | none => rw [hd] at h; cases h
  | some u =>
    rw [hd] at h
    simp only [Option.some_bind, Option.map_eq_some', Prod.mk.injEq] at h
    obtain ⟨⟨i, rest⟩, hp, hl, hr⟩ := h
    obtain rfl : rest = r := hr
    exact ⟨u, i, rfl, hp, hl.symm⟩

theorem matchSection_append :
    ∀ (s l r : List Char), matchSection s = some (l, r) →
      ∀ e, matchSection (s ++ e) = some (l, r ++ e) := by
  intro s l r h e
  obtain ⟨u, i, hd, hs, hl⟩ := matchSection_elim s l r h
  have hd2 : dropPre sectionMarkPre (s ++ e) = some (u ++ e) := by
    rw [dropPre_eq_some_iff] at hd ⊢
    rw [hd, List.append_assoc]
  exact (matchSection_unfold (s ++ e) l (r ++ e) (u ++ e) hd2).mpr
    ⟨i, scanLabelEnd_append u i r hs e, hl⟩

theorem matchAtomic_append :
    ∀ (s l r : List Char), matchAtomic s = some (l, r) →
      ∀ e, matchAtomic (s ++ e) = some (l, r ++ e) := by
  intro s l r h e
  obtain ⟨u, i, hd, hs, hl⟩ := matchAtomic_elim s l r h
  have hd2 : dropPre atomicMarkPre (s ++ e) = some (u ++ e) := by
    rw [dropPre_eq_some_iff] at hd ⊢
    rw [hd, List.append_assoc]
  exact (matchAtomic_unfold (s ++ e) l (r ++ e) (u ++ e) hd2).mpr
    ⟨i, scanLabelEnd_append u i r hs e, hl⟩

theorem matchSection_length :
    ∀ (s l r : List Char), matchSection s = some (l, r) → r.length < s.length := by
  intro s l r h
  obtain ⟨u, i, hd, hs, _⟩ := matchSection_elim s l r h
  rw [dropPre_eq_some_iff] at hd
  have h1 := scanLabelEnd_length u i r hs
  have h2 := congrArg List.length hd
  simp only [List.length_append] at h2
  omega

/-- Characters of the interior that the label scan simply walks over. -/
theorem scanLabelEnd_safe_cons (c : Char) (h1 : c ≠ ']') (h2 : c ≠ '\n') (u : List Char) :
    scanLabelEnd (c :: u) = (scanLabelEnd u).map fun p => (c :: p.1, p.2) := by
  rw [scanLabelEnd, if_neg (fun hc => h1 hc.1), if_neg h2]

theorem scanLabelEnd_safe_append :
    ∀ (w : List Char), (∀ c ∈ w, c ≠ ']' ∧ c ≠ '\n') →
      ∀ u, scanLabelEnd (w ++ u) = (scanLabelEnd u).map fun p => (w ++ p.1, p.2) := by
  intro w
  induction w with
  | nil =>
    intro _ u
    rw [List.nil_append]
    cases h : scanLabelEnd u <;> simp
  | cons c w ih =>
    intro hw u
    have hc := hw c (List.mem_cons_self c w)
    rw [List.cons_append, scanLabelEnd_safe_cons c hc.1 hc.2,
      ih (fun d hd => hw d (List.mem_cons_of_mem c hd)) u]
    cases h : scanLabelEnd u <;> simp

/-- Every match of the atomic-marker pattern is a match of the section-marker
pattern, with the same captured label and the same rest: the section pattern's
lazy interior walks over `atomic_` and then finds the same first `]}`. -/
theorem matchAtomic_imp_matchSection :
    ∀ (s l r : List Char), matchAtomic s = some (l, r) → matchSection s = some (l, r) := by
  intro s l r h
  obtain ⟨u, i, hd, hs, hl⟩ := matchAtomic_elim s l r h
  rw [dropPre_eq_some_iff] at hd
  have hsplit : s = sectionMarkPre ++ ("atomic_".toList ++ u) := by
    rw [hd, show atomicMarkPre = sectionMarkPre ++ "atomic_".toList from by decide,
      List.append_assoc]
  have hd2 : dropPre sectionMarkPre s = some ("atomic_".toList ++ u) :=
    (dropPre_eq_some_iff _ _ _).mpr hsplit
  refine (matchSection_unfold s l r _ hd2).mpr ⟨"atomic_".toList ++ i, ?_, ?_⟩
  · rw [scanLabelEnd_safe_append "atomic_".toList (by decide) u, hs]
    rfl
  · rw [hl, show "[atomic_".toList = '[' :: "atomic_".toList from by decide]
    simp [List.append_assoc]

/-! Lemmas about the one-group split. -/

theorem splitAux_length_odd (m : List Char → Option (List Char × List Char)) :
    ∀ fuel acc s, (splitAux m fuel acc s).length % 2 = 1 := by
  intro fuel
  induction fuel with
  | zero => intro acc s; simp [splitAux]
  | succ f ih =>
    intro acc s
    cases s with
    | nil => simp [splitAux]
    | cons c cs =>
      rw [splitAux]
      cases hm : m (c :: cs) with
      | none => exact ih (c :: acc) cs
      | some p =>
        obtain ⟨l, rest⟩ := p
        have := ih [] rest
        simp only [List.length_cons]
        omega

theorem pySplit_length_odd (m : List Char → Option (List Char × List Char)) (s : List Char) :
    (pySplit m s).length % 2 = 1 :=
  splitAux_length_odd m s.length [] s

theorem hasMatch_iff (m : List Char → Option (List Char × List Char)) :
    ∀ s, hasMatch m s = true ↔ ∃ a u, s = a ++ u ∧ (m u).isSome = true := by
  intro s
  induction s with
  | nil =>
    rw [hasMatch]
    constructor
    · intro h; exact ⟨[], [], rfl, h⟩
    · rintro ⟨a, u, hs, hu⟩
      obtain ⟨rfl, rfl⟩ : a = [] ∧ u = [] := by simpa using hs.symm
      exact hu
  | cons c cs ih =>
    rw [hasMatch]
    constructor
    · intro h
      rcases Bool.or_eq_true_iff.mp h with h1 | h2
      · exact ⟨[], c :: cs, rfl, h1⟩
      · obtain ⟨a, u, hs, hu⟩ := ih.mp h2
        exact ⟨c :: a, u, by rw [List.cons_append, hs], hu⟩
    · rintro ⟨a, u, hs, hu⟩
      cases a with
      | nil =>
        rw [List.nil_append] at hs
        subst hs
        exact Bool.or_eq_true_iff.mpr (Or.inl hu)
      | cons a' as =>
        rw [List.cons_append] at hs
        obtain ⟨rfl, hs2⟩ : a' = c ∧ as ++ u = cs := by
          have h1 := List.head_eq_of_cons_eq hs
          have h2 := List.tail_eq_of_cons_eq hs
          exact ⟨h1.symm, h2.symm⟩
        exact Bool.or_eq_true_iff.mpr (Or.inr (ih.mpr ⟨as, u, hs2.symm, hu⟩))

theorem splitAux_no_match (m : List Char → Option (List Char × List Char)) :
    ∀ s fuel acc, hasMatch m s = false → s.length ≤ fuel →
      splitAux m fuel acc s = [acc.reverse ++ s] := by
  intro s
  induction s with
  | nil =>
    intro fuel acc _ _
    cases fuel <;> simp [splitAux]
  | cons c cs ih =>
    intro fuel acc h hf
    cases fuel with
    | zero => simp at hf
    | succ f =>
      rw [hasMatch] at h
      have h1 : (m (c :: cs)).isSome = false ∧ hasMatch m cs = false := by
        constructor <;> [exact (Bool.or_eq_false_iff.mp h).1; exact (Bool.or_eq_false_iff.mp h).2]
      rw [splitAux]
      cases hm : m (c :: cs) with
      | some p => rw [hm] at h1; simp at h1
      | none =>
        rw [ih f (c :: acc) h1.2 (by simp at hf; omega)]
        simp

/-- `pySplit` on a text without any match returns the whole text as the
single piece. -/
theorem pySplit_no_match (m : List Char → Option (List Char × List Char)) (s : List Char)
    (h : hasMatch m s = false) : pySplit m s = [s] := by
  rw [pySplit, splitAux_no_match m s s.length [] h (Nat.le_refl _)]
  simp

/-- Invariant carried by the section split: every strict suffix of the text
that starts inside the already-scanned accumulator has no section match. -/
def noSecInside (acc s : List Char) : Prop :=
  ∀ u v : List Char, acc.reverse ++ s = u ++ v → s.length < v.length → matchSection v = none

theorem no_atomic_of_inv (acc s : List Char) (hinv : noSecInside acc s) :
    hasMatch matchAtomic acc.reverse = false := by
  by_contra hcon
  have h' : hasMatch matchAtomic acc.reverse = true := by
    cases h : hasMatch matchAtomic acc.reverse with
    | false => exact absurd h hcon
    | true => rfl
  obtain ⟨a, u, hsplit, hu⟩ := (hasMatch_iff matchAtomic acc.reverse).mp h'
  cases hmu : matchAtomic u with
  | none => rw [hmu] at hu; simp at hu
  | some p =>
    obtain ⟨l, r⟩ := p
    have hu_ne : u ≠ [] := by
      rintro rfl
      rw [show matchAtomic [] = none from by decide] at hmu
      cases hmu
    have h2 : matchAtomic (u ++ s) = some (l, r ++ s) := matchAtomic_append u l r hmu s
    have h3 : matchSection (u ++ s) = some (l, r ++ s) :=
      matchAtomic_imp_matchSection (u ++ s) l (r ++ s) h2
    have h4 : matchSection (u ++ s) = none := by
      apply hinv a (u ++ s)
      · rw [hsplit, List.append_assoc]
      · have : 0 < u.length := List.length_pos.mpr hu_ne
        simp [List.length_append]
        omega
    rw [h3] at h4
    cases h4

/-- Main structural property of the pipeline's nested split: every piece (an
even-indexed entry) of the section split admits no atomic-marker match,
because any such match would itself have been a section-marker match consumed
by the outer split. -/
theorem splitAux_even_no_atomic :
    ∀ fuel acc s, s.length ≤ fuel → noSecInside acc s →
      ∀ k x, k % 2 = 0 → (splitAux matchSection fuel acc s)[k]? = some x →
        hasMatch matchAtomic x = false := by
  intro fuel
  induction fuel with
  | zero =>
    intro acc s hlen hinv k x hk hget
    have hs : s = [] := List.eq_nil_of_length_eq_zero (Nat.le_zero.mp hlen)
    subst hs
    rw [splitAux] at hget
    cases k with
    | zero =>
      simp only [List.getElem?_cons_zero, Option.some.injEq] at hget
      subst hget
      simpa using no_atomic_of_inv acc [] hinv
    | succ k => simp at hget
  | succ f ih =>
    intro acc s hlen hinv k x hk hget
    cases s with
    | nil =>
      rw [splitAux] at hget
      cases k with
      | zero =>
        simp only [List.getElem?_cons_zero, Option.some.injEq] at hget
        subst hget
        exact no_atomic_of_inv acc [] hinv
      | succ k => simp at hget
    | cons c cs =>
      rw [splitAux] at hget
      cases hm : matchSection (c :: cs) with
      | some p =>
        obtain ⟨l, r⟩ := p
        rw [hm] at hget
        match k with
        | 0 =>
          simp only [List.getElem?_cons_zero, Option.some.injEq] at hget
          subst hget
          exact no_atomic_of_inv acc (c :: cs) hinv
        | 1 => simp at hk
        | (k + 2) =>
          simp only [List.getElem?_cons_succ] at hget
          refine ih [] r ?_ ?_ k x ?_ hget
          · have hml := matchSection_length (c :: cs) l r hm
            simp only [List.length_cons] at hml hlen
            omega
          · intro u v huv hv
            rw [List.reverse_nil, List.nil_append] at huv
            have := congrArg List.length huv
            simp [List.length_append] at this
            omega
          · omega
      | none =>
        rw [hm] at hget
        refine ih (c :: acc) cs ?_ ?_ k x hk hget
        · simp at hlen
          omega
        · intro u v huv hv
          have htot : acc.reverse ++ (c :: cs) = u ++ v := by
            rw [← huv, List.reverse_cons, List.append_assoc]
            rfl
          by_cases hv2 : (c :: cs).length < v.length
          · exact hinv u v htot hv2
          · have hvlen : v.length = cs.length + 1 := by
              simp at hv2 ⊢
              omega
            have hul : acc.reverse.length = u.length := by
              have := congrArg List.length htot
              simp only [List.length_append, List.length_cons] at this
              omega
            obtain ⟨_, h2⟩ := List.append_inj htot hul
            rw [← h2]
            exact hm

/-! From split pieces to the pipeline's section pairs. -/

theorem toPairs_isSome : ∀ l : List (List Char), l.length % 2 = 0 → (toPairs l).isSome = true := by
  intro l
  induction l using toPairs.induct with
  | case1 => intro _; simp [toPairs]
  | case2 a => intro h; simp at h
  | case3 a b rest ih =>
    intro h
    simp only [List.length_cons] at h
    have := ih (by omega)
    rw [toPairs]
    cases hp : toPairs rest with
    | none => rw [hp] at this; cases this
    | some ps => simp

theorem toPairs_snd_index :
    ∀ (l : List (List Char)) ps, toPairs l = some ps →
      ∀ p ∈ ps, ∃ k, k % 2 = 1 ∧ l[k]? = some p.2 := by
  intro l
  induction l using toPairs.induct with
  | case1 =>
    intro ps h p hp
    rw [toPairs] at h
    simp only [Option.some.injEq] at h
    subst h
    simp at hp
  | case2 a => intro ps h; rw [toPairs] at h; cases h
  | case3 a b rest ih =>
    intro ps h p hp
    rw [toPairs] at h
    cases hp2 : toPairs rest with
    | none => rw [hp2] at h; cases h
    | some ps' =>
      rw [hp2] at h
      simp only [Option.map_some', Option.some.injEq] at h
      subst h
      rcases List.mem_cons.mp hp with rfl | hmem
      · exact ⟨1, by decide, by simp⟩
      · obtain ⟨k, hk1, hk2⟩ := ih ps' hp2 p hmem
        exact ⟨k + 2, by omega, by simpa using hk2⟩

/-- A match inside an inner segment extends to a match of the surrounding
text, so a match-free surrounding text has a match-free inner segment. -/
theorem hasMatch_parts (m : List Char → Option (List Char × List Char))
    (hmono : ∀ u l r, m u = some (l, r) → ∀ e, m (u ++ e) = some (l, r ++ e)) :
    ∀ (a t b : List Char), hasMatch m (a ++ (t ++ b)) = false → hasMatch m t = false := by
  intro a t b h
  cases hm : hasMatch m t with
  | false => rfl
  | true =>
    exfalso
    obtain ⟨x, u, ht, hu⟩ := (hasMatch_iff m t).mp hm
    cases hmu : m u with
    | none => rw [hmu] at hu; simp at hu
    | some p =>
      have h2 := hmono u p.1 p.2 (by rw [hmu]) b
      have h3 : hasMatch m (a ++ (t ++ b)) = true := by
        apply (hasMatch_iff m _).mpr
        refine ⟨a ++ x, u ++ b, ?_, by rw [h2]; rfl⟩
        rw [ht, List.append_assoc, List.append_assoc]
      rw [h3] at h
      cases h

theorem truncEndDoc_pre : ∀ t : List Char, ∃ y, t = truncEndDoc t ++ y := by
  intro t
  induction t with
  | nil => exact ⟨[], rfl⟩
  | cons c cs ih =>
    rw [truncEndDoc]
    by_cases h : (dropPre endDocMarker (c :: cs)).isSome = true
    · rw [if_pos h]
      exact ⟨c :: cs, rfl⟩
    · rw [if_neg h]
      obtain ⟨y, hy⟩ := ih
      exact ⟨y, by rw [List.cons_append, ← hy]⟩

theorem pyStrip_parts : ∀ t : List Char, ∃ x y, t = x ++ (pyStrip t ++ y) := by
  intro t
  refine ⟨t.takeWhile isPySpace,
    ((t.dropWhile isPySpace).reverse.takeWhile isPySpace).reverse, ?_⟩
  have h1 : pyStrip t ++ ((t.dropWhile isPySpace).reverse.takeWhile isPySpace).reverse
      = t.dropWhile isPySpace := by
    rw [pyStrip, ← List.reverse_append, List.takeWhile_append_dropWhile, List.reverse_reverse]
  rw [h1, List.takeWhile_append_dropWhile]

theorem processedContent_no_atomic (title raw : List Char)
    (h : hasMatch matchAtomic raw = false) :
    hasMatch matchAtomic (processedContent title raw) = false := by
  have hs : hasMatch matchAtomic (pyStrip raw) = false := by
    obtain ⟨x, y, hxy⟩ := pyStrip_parts raw
    exact hasMatch_parts matchAtomic matchAtomic_append x _ y (by rw [← hxy]; exact h)
  have ht : hasMatch matchAtomic (truncEndDoc (pyStrip raw)) = false := by
    obtain ⟨y, hy⟩ := truncEndDoc_pre (pyStrip raw)
    exact hasMatch_parts matchAtomic matchAtomic_append [] _ y
      (by rw [List.nil_append, ← hy]; exact hs)
  rw [processedContent]
  by_cases hr : containsTok "RESPONSE".toList (pyUpper title) = true
  · simp only [hr, if_true]
    obtain ⟨y, hy⟩ := truncEndDoc_pre (truncEndDoc (pyStrip raw))
    exact hasMatch_parts matchAtomic matchAtomic_append [] _ y
      (by rw [List.nil_append, ← hy]; exact ht)
  · simp only [Bool.not_eq_true] at hr
    simp only [hr, if_false]
    exact ht

theorem atomicSplit_no_match (c : List Char) (h : hasMatch matchAtomic c = false) :
    atomicSplit c = [c] :=
  pySplit_no_match matchAtomic c h

theorem pairCells_no_atomic (i : Nat) (title raw : List Char)
    (h : hasMatch matchAtomic (processedContent title raw) = false) :
    pairCells i title raw = some (sectionDividerCells i title ++
      [mdCell ("**".toList ++ title ++ "**\n\n".toList ++ processedContent title raw)
        ("section_".toList ++ decRepr i)]) := by
  rw [pairCells]
  simp only [atomicSplit_no_match _ h, List.length_cons, List.length_nil]
  norm_num

/-- What each pair contributes when its content has no atomic marker: the
optional divider followed by the single section Block. -/
def flatSimple : Nat → List (List Char × List Char) → List Cell
  | _, [] => []
  | i, (t, r) :: rest =>
    (sectionDividerCells i t ++
      [mdCell ("**".toList ++ t ++ "**\n\n".toList ++ processedContent t r)
        ("section_".toList ++ decRepr i)]) ++ flatSimple (i + 2) rest

theorem processPairs_eq_flat :
    ∀ (prs : List (List Char × List Char)) i,
      (∀ p ∈ prs, hasMatch matchAtomic (processedContent p.1 p.2) = false) →
      processPairs i prs = some (flatSimple i prs) := by
  intro prs
  induction prs with
  | nil => intro i _; rfl
  | cons p rest ih =>
    intro i h
    obtain ⟨t, r⟩ := p
    rw [processPairs, pairCells_no_atomic i t r (h (t, r) (List.mem_cons_self _ _)),
      ih (i + 2) (fun q hq => h q (List.mem_cons_of_mem _ hq)), flatSimple]

theorem sectionSplit_piece_no_atomic (t : List Char) :
    ∀ k x, k % 2 = 0 → (sectionSplit t)[k]? = some x → hasMatch matchAtomic x = false := by
  intro k x hk hget
  refine splitAux_even_no_atomic t.length [] t (Nat.le_refl _) ?_ k x hk hget
  intro u v huv hv
  rw [List.reverse_nil, List.nil_append] at huv
  have := congrArg List.length huv
  simp only [List.length_append] at this
  exact absurd hv (by omega)

theorem parsePairs_toPairs (t : List Char) :
    toPairs ((sectionSplit (truncEndDoc t)).drop 1) = some (parsePairs t) := by
  have hodd : (sectionSplit (truncEndDoc t)).length % 2 = 1 :=
    pySplit_length_odd matchSection (truncEndDoc t)
  have heven : ((sectionSplit (truncEndDoc t)).drop 1).length % 2 = 0 := by
    simp only [List.length_drop]
    omega
  have hsome := toPairs_isSome _ heven
  rw [parsePairs]
  cases hp : toPairs ((sectionSplit (truncEndDoc t)).drop 1) with
  | none => rw [hp] at hsome; cases hsome
  | some ps => simp

theorem parsePairs_no_atomic (t : List Char) :
    ∀ p ∈ parsePairs t, hasMatch matchAtomic (processedContent p.1 p.2) = false := by
  intro p hp
  obtain ⟨k, hk1, hk2⟩ := toPairs_snd_index _ _ (parsePairs_toPairs t) p hp
  have hk3 : (sectionSplit (truncEndDoc t))[k + 1]? = some p.2 := by
    rw [List.getElem?_drop] at hk2
    simpa [Nat.add_comm] using hk2
  have hraw := sectionSplit_piece_no_atomic (truncEndDoc t) (k + 1) p.2 (by omega) hk3
  exact processedContent_no_atomic p.1 p.2 hraw

/-- The pipeline always succeeds and produces the metadata cell, the per-pair
divider/section cells, and the final divider, all run through the cleanup. -/
theorem parse_eq_flat (t : List Char) :
    parse_input_to_notebook t =
      some ⟨(metadataCell :: flatSimple 1 (parsePairs t) ++ [finalSepCell]).map cleanupCell,
        4, 5⟩ := by
  rw [parse_input_to_notebook]
  simp only [parsePairs_toPairs t,
    processPairs_eq_flat (parsePairs t) 1 (parsePairs_no_atomic t)]

/-! Properties of the decimal index representation. -/

theorem digitChar_isDigit : ∀ n, (digitChar n).isDigit = true := by
  intro n
  rw [digitChar]
  repeat' split
  all_goals decide

theorem digitVal_digitChar : ∀ n, n < 10 → digitVal (digitChar n) = n := by
  intro n h
  interval_cases n <;> decide

theorem digitsToNat_concat (xs : List Char) (c : Char) :
    digitsToNat (xs ++ [c]) = 10 * digitsToNat xs + digitVal c := by
  rw [digitsToNat, digitsToNat, List.foldl_append]
  rfl

theorem digitsToNat_natDigitsAux :
    ∀ fuel n, n < fuel → digitsToNat (natDigitsAux fuel n) = n := by
  intro fuel
  induction fuel with
  | zero => intro n h; omega
  | succ f ih =>
    intro n h
    rw [natDigitsAux]
    by_cases h10 : n < 10
    · rw [if_pos h10]
      have : digitsToNat [digitChar n] = digitVal (digitChar n) := by
        rw [digitsToNat]
        simp [List.foldl]
      rw [this, digitVal_digitChar n h10]
    · rw [if_neg h10]
      rw [digitsToNat_concat, ih (n / 10) (by omega), digitVal_digitChar (n % 10) (by omega)]
      omega

theorem digitsToNat_decRepr (n : Nat) : digitsToNat (decRepr n) = n :=
  digitsToNat_natDigitsAux (n + 1) n (Nat.lt_succ_self n)

theorem decRepr_inj : ∀ m n : Nat, decRepr m = decRepr n → m = n := by
  intro m n h
  have := congrArg digitsToNat h
  rwa [digitsToNat_decRepr, digitsToNat_decRepr] at this

theorem natDigitsAux_digits : ∀ fuel n c, c ∈ natDigitsAux fuel n → c.isDigit = true := by
  intro fuel
  induction fuel with
  | zero => intro n c h; simp [natDigitsAux] at h
  | succ f ih =>
    intro n c h
    rw [natDigitsAux] at h
    by_cases h10 : n < 10
    · rw [if_pos h10] at h
      simp only [List.mem_singleton] at h
      subst h
      exact digitChar_isDigit n
    · rw [if_neg h10] at h
      rcases List.mem_append.mp h with h1 | h2
      · exact ih (n / 10) c h1
      · simp only [List.mem_singleton] at h2
        subst h2
        exact digitChar_isDigit (n % 10)

theorem decRepr_digits (n : Nat) : ∀ c ∈ decRepr n, c.isDigit = true :=
  fun c hc => natDigitsAux_digits (n + 1) n c hc

theorem decRepr_ne_nil : ∀ n, decRepr n ≠ [] := by
  intro n
  rw [decRepr, natDigitsAux]
  by_cases h10 : n < 10
  · rw [if_pos h10]; simp
  · rw [if_neg h10]; simp

/-! Helpers to tell the generated id strings apart. -/

theorem id_ne_of_head (a b : List Char) (x y : Char) (hx : a[0]? = some x)
    (hy : b[0]? = some y) (hxy : x ≠ y) : a ≠ b := by
  intro h
  rw [h, hy] at hx
  exact hxy (Option.some.inj hx).symm

theorem sec_ne_sepb (x y : List Char) :
    "section_".toList ++ x ≠ "separator_before_".toList ++ y := by
  intro h
  have h2 : (some 'c' : Option Char) = some 'p' := congrArg (fun l => l[2]?) h
  simp at h2

theorem sec_ne_sep (x y : List Char) :
    "section_".toList ++ x ≠ "separator_".toList ++ y := by
  intro h
  have h2 : (some 'c' : Option Char) = some 'p' := congrArg (fun l => l[2]?) h
  simp at h2

theorem sep_ne_sepb (j : Nat) (y : List Char) :
    "separator_".toList ++ decRepr j ≠ "separator_before_".toList ++ y := by
  intro h
  rw [show "separator_before_".toList = "separator_".toList ++ "before_".toList from by decide,
    List.append_assoc] at h
  have h2 := List.append_cancel_left h
  obtain ⟨c, rest, hc⟩ : ∃ c rest, decRepr j = c :: rest := by
    cases hd : decRepr j with
    | nil => exact absurd hd (decRepr_ne_nil j)
    | cons c rest => exact ⟨c, rest, rfl⟩
  have hcd : c.isDigit = true := decRepr_digits j c (by rw [hc]; exact List.mem_cons_self _ _)
  rw [hc] at h2
  have h3 : c = 'b' := by
    have := congrArg (fun l => l[0]?) h2
    simpa using this
  rw [h3] at hcd
  simp at hcd

theorem sec_ne_sec (j k : Nat) (h : j ≠ k) :
    "section_".toList ++ decRepr j ≠ "section_".toList ++ decRepr k := by
  intro he
  exact h (decRepr_inj j k (List.append_cancel_left he))

theorem sep_ne_sep (j k : Nat) (h : j ≠ k) :
    "separator_".toList ++ decRepr j ≠ "separator_".toList ++ decRepr k := by
  intro he
  exact h (decRepr_inj j k (List.append_cancel_left he))

theorem sepb_ne_sepb (x y : List Char) (h : x ≠ y) :
    "separator_before_".toList ++ x ≠ "separator_before_".toList ++ y := by
  intro he
  exact h (List.append_cancel_left he)

/-- The titles that trigger a `separator_before_…` divider (their id is
derived from the title, so repeats collide). -/
def secDivTitles (prs : List (List Char × List Char)) : List (List Char) :=
  (prs.map Prod.fst).filter fun ti => containsSecNum (pyUpper ti)

theorem secDivTitles_cons (t r : List Char) (rest : List (List Char × List Char)) :
    secDivTitles ((t, r) :: rest) =
      if containsSecNum (pyUpper t) then t :: secDivTitles rest else secDivTitles rest := by
  rw [secDivTitles, List.map_cons, List.filter_cons]
  rfl

theorem flatSimple_id_mem :
    ∀ (prs : List (List Char × List Char)) i x, x ∈ (flatSimple i prs).map Cell.id →
      (∃ j, i ≤ j ∧ (x = "section_".toList ++ decRepr j ∨
        x = "separator_".toList ++ decRepr j)) ∨
      (∃ ti, ti ∈ secDivTitles prs ∧ x = "separator_before_".toList ++ ti) := by
  intro prs
  induction prs with
  | nil => intro i x h; simp [flatSimple] at h
  | cons p rest ih =>
    intro i x h
    obtain ⟨t, r⟩ := p
    rw [flatSimple] at h
    simp only [List.map_append, List.mem_append] at h
    rcases h with (hd | hs) | h2
    · rw [sectionDividerCells] at hd
      by_cases hsec : containsSecNum (pyUpper t) = true
      · rw [if_pos hsec] at hd
        simp only [List.map_cons, List.map_nil, mdCell, List.mem_singleton] at hd
        right
        refine ⟨t, ?_, hd⟩
        rw [secDivTitles_cons, if_pos hsec]
        exact List.mem_cons_self _ _
      · rw [if_neg hsec] at hd
        by_cases hpr : hasPromptOrResponse (pyUpper t) = true
        · rw [if_pos hpr] at hd
          simp only [List.map_cons, List.map_nil, mdCell, List.mem_singleton] at hd
          exact Or.inl ⟨i, Nat.le_refl _, Or.inr hd⟩
        · rw [if_neg hpr] at hd
          simp at hd
    · simp only [List.map_cons, List.map_nil, mdCell, List.mem_singleton] at hs
      exact Or.inl ⟨i, Nat.le_refl _, Or.inl hs⟩
    · rcases ih (i + 2) x h2 with ⟨j, hj, hx⟩ | ⟨ti, hti, hx⟩
      · exact Or.inl ⟨j, by omega, hx⟩
      · right
        refine ⟨ti, ?_, hx⟩
        rw [secDivTitles_cons]
        by_cases hsec : containsSecNum (pyUpper t) = true
        · rw [if_pos hsec]
          exact List.mem_cons_of_mem _ hti
        · rw [if_neg hsec]
          exact hti

theorem mdCell_id (src id : List Char) : (mdCell src id).id = id := rfl

theorem flatSimple_head_id_shapes (i : Nat) (t r x : List Char)
    (hx1 : x ∈ ((sectionDividerCells i t ++
      [mdCell ("**".toList ++ t ++ "**\n\n".toList ++ processedContent t r)
        ("section_".toList ++ decRepr i)]).map Cell.id)) :
    x = "section_".toList ++ decRepr i ∨
      (containsSecNum (pyUpper t) = true ∧ x = "separator_before_".toList ++ t) ∨
      x = "separator_".toList ++ decRepr i := by
  rw [sectionDividerCells] at hx1
  by_cases hsec : containsSecNum (pyUpper t) = true
  · rw [if_pos hsec] at hx1
    simp only [List.map_append, List.map_cons, List.map_nil, mdCell, List.mem_append,
      List.mem_singleton] at hx1
    rcases hx1 with h1 | h1
    · exact Or.inr (Or.inl ⟨hsec, h1⟩)
    · exact Or.inl h1
  · rw [if_neg hsec] at hx1
    by_cases hpr : hasPromptOrResponse (pyUpper t) = true
    · rw [if_pos hpr] at hx1
      simp only [List.map_append, List.map_cons, List.map_nil, mdCell, List.mem_append,
        List.mem_singleton] at hx1
      rcases hx1 with h1 | h1
      · exact Or.inr (Or.inr h1)
      · exact Or.inl h1
    · rw [if_neg hpr] at hx1
      simp only [List.nil_append, List.map_cons, List.map_nil, mdCell,
        List.mem_singleton] at hx1
      exact Or.inl hx1

theorem flatSimple_id_nodup :
    ∀ (prs : List (List Char × List Char)) i, (secDivTitles prs).Nodup →
      ((flatSimple i prs).map Cell.id).Nodup := by
  intro prs
  induction prs with
  | nil => intro i _; simp [flatSimple]
  | cons p rest ih =>
    intro i hnd
    obtain ⟨t, r⟩ := p
    have hndrest : (secDivTitles rest).Nodup := by
      rw [secDivTitles_cons] at hnd
      by_cases hsec : containsSecNum (pyUpper t) = true
      · rw [if_pos hsec] at hnd
        exact List.Nodup.of_cons hnd
      · rwa [if_neg hsec] at hnd
    rw [flatSimple]
    simp only [List.map_append]
    rw [List.nodup_append]
    refine ⟨?_, ih (i + 2) hndrest, ?_⟩
    · rw [sectionDividerCells]
      by_cases hsec : containsSecNum (pyUpper t) = true
      · rw [if_pos hsec]
        simp only [List.map_append, List.map_cons, List.map_nil, mdCell_id]
        refine List.nodup_cons.mpr ⟨fun hmem => ?_, List.nodup_singleton _⟩
        exact sec_ne_sepb (decRepr i) t (List.mem_singleton.mp hmem).symm
      · rw [if_neg hsec]
        by_cases hpr : hasPromptOrResponse (pyUpper t) = true
        · rw [if_pos hpr]
          simp only [List.map_append, List.map_cons, List.map_nil, mdCell_id]
          refine List.nodup_cons.mpr ⟨fun hmem => ?_, List.nodup_singleton _⟩
          exact sec_ne_sep (decRepr i) (decRepr i) (List.mem_singleton.mp hmem).symm
        · rw [if_neg hpr]
          simp only [List.nil_append, List.map_cons, List.map_nil]
          exact List.nodup_singleton _
    · intro x hx1 hx2
      rw [← List.map_append] at hx1
      have hx1' := flatSimple_head_id_shapes i t r x hx1
      rcases flatSimple_id_mem rest (i + 2) x hx2 with ⟨j, hj, hx⟩ | ⟨ti, hti, hx⟩
      · rcases hx with hxj | hxj
        · rcases hx1' with h1 | ⟨hsec, h1⟩ | h1
          · exact sec_ne_sec i j (by omega) (by rw [← h1, hxj])
          · exact sec_ne_sepb (decRepr j) t (by rw [← hxj, h1])
          · exact sec_ne_sep (decRepr j) (decRepr i) (by rw [← hxj, h1])
        · rcases hx1' with h1 | ⟨hsec, h1⟩ | h1
          · exact sec_ne_sep (decRepr i) (decRepr j) (by rw [← h1, hxj])
          · exact sep_ne_sepb j t (by rw [← hxj, h1])
          · exact sep_ne_sep i j (by omega) (by rw [← h1, hxj])
      · rcases hx1' with h1 | ⟨hsec, h1⟩ | h1
        · exact sec_ne_sepb (decRepr i) ti (by rw [← h1, hx])
        · have ht_ti : t = ti := by
            have := h1.symm.trans hx
            exact List.append_cancel_left this
          have hnotin : t ∉ secDivTitles rest := by
            rw [secDivTitles_cons, if_pos hsec] at hnd
            exact (List.nodup_cons.mp hnd).1
          exact hnotin (ht_ti ▸ hti)
        · exact sep_ne_sepb i ti (by rw [← h1, hx])

theorem cleanupCell_id (c : Cell) : (cleanupCell c).id = c.id := by
  rw [cleanupCell]
  split <;> rfl

theorem parse_ids (t : List Char) (nb : Notebook) (h : parse_input_to_notebook t = some nb) :
    nb.cells.map Cell.id =
      "metadata_cell".toList ::
        ((flatSimple 1 (parsePairs t)).map Cell.id ++ ["final_separator".toList]) := by
  rw [parse_eq_flat t] at h
  have h2 := Option.some.inj h
  rw [← h2]
  show (List.map cleanupCell (metadataCell :: flatSimple 1 (parsePairs t) ++ [finalSepCell])).map
    Cell.id = _
  rw [List.map_map, show (Cell.id ∘ cleanupCell) = Cell.id from funext cleanupCell_id]
  simp [metadataCell, finalSepCell, mdCell_id]

/-! The final cleanup pass and its idempotence domain (claim C7). -/

/-- Does the text contain two consecutive backslashes? -/
def hasBB : List Char → Bool
  | [] => false
  | c :: cs => (decide (c = '\\') && decide (cs.head? = some '\\')) || hasBB cs

/-- Does the text contain three consecutive backslashes? -/
def has3B : List Char → Bool
  | [] => false
  | c :: cs =>
    (decide (c = '\\') && decide (cs.head? = some '\\') && decide (cs.tail.head? = some '\\'))
      || has3B cs

theorem has3B_tail (c : Char) (l : List Char) (h : has3B (c :: l) = false) :
    has3B l = false := by
  rw [has3B] at h
  exact (Bool.or_eq_false_iff.mp h).2

theorem collapseBS_head (l : List Char) : (collapseBS l).head? = l.head? := by
  induction l using collapseBS.induct with
  | case1 => rfl
  | case2 c => rfl
  | case3 c d cs h _ =>
    rw [collapseBS, if_pos h]
    simp [h.1]
  | case4 c d cs h _ =>
    rw [collapseBS, if_neg h]
    rfl

theorem collapseBS_id_of_noBB : ∀ l : List Char, hasBB l = false → collapseBS l = l := by
  intro l
  induction l using collapseBS.induct with
  | case1 => intro _; rfl
  | case2 c => intro _; rfl
  | case3 c d cs h ih =>
    intro hbb
    exfalso
    rw [hasBB] at hbb
    have := (Bool.or_eq_false_iff.mp hbb).1
    simp [h.1, h.2] at this
  | case4 c d cs h ih =>
    intro hbb
    rw [hasBB] at hbb
    rw [collapseBS, if_neg h, ih (Bool.or_eq_false_iff.mp hbb).2]

theorem hasBB_collapseBS_of_no3B : ∀ l : List Char, has3B l = false →
    hasBB (collapseBS l) = false := by
  intro l
  induction l using collapseBS.induct with
  | case1 => intro _; rfl
  | case2 c => intro _; simp [collapseBS, hasBB]
  | case3 c d cs h ih =>
    intro h3
    rw [collapseBS, if_pos h, hasBB]
    have hcs3 : has3B cs = false := has3B_tail d _ (has3B_tail c _ h3)
    rw [Bool.or_eq_false_iff]
    refine ⟨?_, ih hcs3⟩
    have hne : cs.head? ≠ some '\\' := by
      intro hcon
      rw [has3B] at h3
      have h1 := (Bool.or_eq_false_iff.mp h3).1
      simp [h.1, h.2, hcon] at h1
    rw [collapseBS_head]
    simp [hne]
  | case4 c d cs h ih =>
    intro h3
    rw [collapseBS, if_neg h, hasBB]
    rw [Bool.or_eq_false_iff]
    refine ⟨?_, ih (has3B_tail c _ h3)⟩
    rw [collapseBS_head]
    simp only [List.head?_cons]
    by_cases hc : c = '\\'
    · have hd : d ≠ '\\' := fun hd => h ⟨hc, hd⟩
      simp [hd]
    · simp [hc]

/-- Does the text contain the document-end marker? -/
def hasEndDoc : List Char → Bool
  | [] => false
  | c :: cs => (dropPre endDocMarker (c :: cs)).isSome || hasEndDoc cs

theorem truncEndDoc_id_of_none : ∀ t : List Char, hasEndDoc t = false → truncEndDoc t = t := by
  intro t
  induction t with
  | nil => intro _; rfl
  | cons c cs ih =>
    intro h
    rw [hasEndDoc] at h
    have h1 := Bool.or_eq_false_iff.mp h
    rw [truncEndDoc, if_neg (by simp [h1.1]), ih h1.2]

theorem hasEndDoc_truncEndDoc : ∀ t : List Char, hasEndDoc (truncEndDoc t) = false := by
  intro t
  induction t with
  | nil => rfl
  | cons c cs ih =>
    rw [truncEndDoc]
    by_cases h : (dropPre endDocMarker (c :: cs)).isSome = true
    · rw [if_pos h]; rfl
    · rw [if_neg h, hasEndDoc, Bool.or_eq_false_iff]
      refine ⟨?_, ih⟩
      cases hm : dropPre endDocMarker (c :: truncEndDoc cs) with
      | none => rfl
      | some r =>
        exfalso
        apply h
        rw [dropPre_eq_some_iff] at hm
        obtain ⟨y, hy⟩ := truncEndDoc_pre cs
        have : c :: cs = endDocMarker ++ (r ++ y) := by
          rw [hy, show c :: (truncEndDoc cs ++ y) = (c :: truncEndDoc cs) ++ y from rfl, hm,
            List.append_assoc]
        rw [(dropPre_eq_some_iff endDocMarker (c :: cs) (r ++ y)).mpr this]
        rfl

theorem truncEndDoc_idem (t : List Char) : truncEndDoc (truncEndDoc t) = truncEndDoc t :=
  truncEndDoc_id_of_none _ (hasEndDoc_truncEndDoc t)

theorem hasBB_of_parts (p y : List Char) (h : hasBB (p ++ y) = false) : hasBB p = false := by
  induction p with
  | nil => rfl
  | cons c cs ih =>
    rw [List.cons_append, hasBB] at h
    have h1 := Bool.or_eq_false_iff.mp h
    rw [hasBB, Bool.or_eq_false_iff]
    refine ⟨?_, ih h1.2⟩
    cases cs with
    | nil => simp
    | cons d cs' => simpa using h1.1

/-! Lemmas about the literal substitution scan (claims C3, C6). -/

theorem replaceAllAux_not_contains (pat repl : List Char) :
    ∀ (s : List Char) fuel, containsTok pat s = false → replaceAllAux pat repl fuel s = s := by
  intro s
  induction s with
  | nil =>
    intro fuel _
    cases fuel <;> rfl
  | cons c cs ih =>
    intro fuel h
    rw [containsTok] at h
    have h1 := Bool.or_eq_false_iff.mp h
    cases fuel with
    | zero => rfl
    | succ f =>
      rw [replaceAllAux]
      cases hm : dropPre pat (c :: cs) with
      | some r => rw [hm] at h1; simp at h1
      | none => rw [ih f h1.2]

theorem replaceAll_not_contains (pat repl s : List Char) (h : containsTok pat s = false) :
    replaceAll pat repl s = s :=
  replaceAllAux_not_contains pat repl s s.length h

theorem replaceAllAux_length_ge (pat repl : List Char) (hlen : pat.length ≤ repl.length) :
    ∀ fuel (s : List Char), s.length ≤ (replaceAllAux pat repl fuel s).length := by
  intro fuel
  induction fuel with
  | zero => intro s; rw [replaceAllAux]
  | succ f ih =>
    intro s
    cases s with
    | nil => rw [replaceAllAux]
    | cons c cs =>
      rw [replaceAllAux]
      cases hm : dropPre pat (c :: cs) with
      | some r =>
        rw [dropPre_eq_some_iff] at hm
        have hl := congrArg List.length hm
        simp only [List.length_cons, List.length_append] at hl ⊢
        have := ih r
        omega
      | none =>
        simp only [List.length_cons]
        have := ih cs
        omega

theorem replaceAllAux_length_gt (pat repl : List Char) (hlen : pat.length < repl.length)
    (hpat : pat ≠ []) :
    ∀ (s : List Char) fuel, containsTok pat s = true → s.length ≤ fuel →
      s.length < (replaceAllAux pat repl fuel s).length := by
  intro s
  induction s with
  | nil =>
    intro fuel h _
    rw [containsTok] at h
    cases pat with
    | nil => exact absurd rfl hpat
    | cons p ps => simp [dropPre] at h
  | cons c cs ih =>
    intro fuel h hf
    cases fuel with
    | zero => simp at hf
    | succ f =>
      rw [replaceAllAux]
      cases hm : dropPre pat (c :: cs) with
      | some r =>
        rw [dropPre_eq_some_iff] at hm
        have hl := congrArg List.length hm
        simp only [List.length_cons, List.length_append] at hl ⊢
        have := replaceAllAux_length_ge pat repl (Nat.le_of_lt hlen) f r
        omega
      | none =>
        rw [containsTok] at h
        rcases Bool.or_eq_true_iff.mp h with h1 | h2
        · rw [hm] at h1; simp at h1
        · simp only [List.length_cons]
          have := ih f h2 (by simp at hf; omega)
          omega

theorem replaceAll_length_ge (pat repl : List Char) (hlen : pat.length ≤ repl.length)
    (s : List Char) : s.length ≤ (replaceAll pat repl s).length :=
  replaceAllAux_length_ge pat repl hlen s.length s

theorem replaceAll_length_gt (pat repl : List Char) (hlen : pat.length < repl.length)
    (hpat : pat ≠ []) (s : List Char) (h : containsTok pat s = true) :
    s.length < (replaceAll pat repl s).length :=
  replaceAllAux_length_gt pat repl hlen hpat s s.length h (Nat.le_refl _)

/-- The four delimiter substitutions leave a text unchanged exactly when none
of the four delimiters occurs in it. -/
def noDelims (t : List Char) : Prop :=
  containsTok "\\(".toList t = false ∧ containsTok "\\)".toList t = false ∧
    containsTok "\\[".toList t = false ∧ containsTok "\\]".toList t = false

instance noDelimsDecidable (t : List Char) : Decidable (noDelims t) :=
  inferInstanceAs (Decidable (containsTok "\\(".toList t = false ∧
    containsTok "\\)".toList t = false ∧ containsTok "\\[".toList t = false ∧
    containsTok "\\]".toList t = false))

theorem escapeCellText_unfold (t : List Char) :
    escapeCellText t =
      replaceAll "\\]".toList "\\\\]".toList
        (replaceAll "\\[".toList "\\\\[".toList
          (replaceAll "\\)".toList "\\\\)".toList
            (replaceAll "\\(".toList "\\\\(".toList t))) := rfl

theorem escapeCellText_eq_iff (t : List Char) : escapeCellText t = t ↔ noDelims t := by
  constructor
  · intro h
    rw [escapeCellText_unfold] at h
    set t1 := replaceAll "\\(".toList "\\\\(".toList t with ht1
    set t2 := replaceAll "\\)".toList "\\\\)".toList t1 with ht2
    set t3 := replaceAll "\\[".toList "\\\\[".toList t2 with ht3
    have le1 : t.length ≤ t1.length := replaceAll_length_ge _ _ (by decide) t
    have le2 : t1.length ≤ t2.length := replaceAll_length_ge _ _ (by decide) t1
    have le3 : t2.length ≤ t3.length := replaceAll_length_ge _ _ (by decide) t2
    have le4 : t3.length ≤ (replaceAll "\\]".toList "\\\\]".toList t3).length :=
      replaceAll_length_ge _ _ (by decide) t3
    have hlen : (replaceAll "\\]".toList "\\\\]".toList t3).length = t.length := by rw [h]
    have e1 : t1.length = t.length := by omega
    have e2 : t2.length = t.length := by omega
    have e3 : t3.length = t.length := by omega
    have hc1 : containsTok "\\(".toList t = false := by
      cases hcc : containsTok "\\(".toList t with
      | false => rfl
      | true =>
        have := replaceAll_length_gt "\\(".toList "\\\\(".toList (by decide) (by decide)
          t hcc
        rw [← ht1] at this
        omega
    have ht1id : t1 = t := by rw [ht1, replaceAll_not_contains _ _ _ hc1]
    have hc2 : containsTok "\\)".toList t = false := by
      cases hcc : containsTok "\\)".toList t with
      | false => rfl
      | true =>
        have := replaceAll_length_gt "\\)".toList "\\\\)".toList (by decide) (by decide)
          t hcc
        rw [ht2, ht1id] at e2
        omega
    have ht2id : t2 = t := by rw [ht2, ht1id, replaceAll_not_contains _ _ _ hc2]
    have hc3 : containsTok "\\[".toList t = false := by
      cases hcc : containsTok "\\[".toList t with
      | false => rfl
      | true =>
        have := replaceAll_length_gt "\\[".toList "\\\\[".toList (by decide) (by decide)
          t hcc
        rw [ht3, ht2id] at e3
        omega
    have ht3id : t3 = t := by rw [ht3, ht2id, replaceAll_not_contains _ _ _ hc3]
    have hc4 : containsTok "\\]".toList t = false := by
      cases hcc : containsTok "\\]".toList t with
      | false => rfl
      | true =>
        have := replaceAll_length_gt "\\]".toList "\\\\]".toList (by decide) (by decide)
          t hcc
        rw [ht3id] at h
        have hlen2 := congrArg List.length h
        omega
    exact ⟨hc1, hc2, hc3, hc4⟩
  · rintro ⟨h1, h2, h3, h4⟩
    rw [escapeCellText_unfold, replaceAll_not_contains _ _ _ h1,
      replaceAll_not_contains _ _ _ h2, replaceAll_not_contains _ _ _ h3,
      replaceAll_not_contains _ _ _ h4]

theorem map_id_of_mem {α : Type} (f : α → α) :
    ∀ l : List α, (∀ x ∈ l, f x = x) → l.map f = l := by
  intro l
  induction l with
  | nil => intro _; rfl
  | cons a l ih =>
    intro h
    rw [List.map_cons, h a (List.mem_cons_self a l), ih (fun x hx => h x (List.mem_cons_of_mem a hx))]

/-! `re.subn` count bookkeeping (claim C2). -/

theorem subnAux_count_zero (oM cM : List Char → Option (List Char))
    (lw rw : List Char) (al : Bool) :
    ∀ fuel (s : List Char), (subnAux oM cM lw rw al fuel s).2 = 0 →
      (subnAux oM cM lw rw al fuel s).1 = s := by
  intro fuel s
  induction fuel, s using subnAux.induct oM cM lw rw al with
  | case1 s => intro _; rfl
  | case2 f => intro _; rfl
  | case3 f c cs afterOpen hm gi gr hsc ih =>
    intro h
    rw [subnAux, hm] at h
    simp only [] at h
    rw [hsc] at h
    simp only [] at h
    omega
  | case4 f c cs afterOpen hm hsc ih =>
    intro h
    rw [subnAux, hm] at h ⊢
    simp only [] at h ⊢
    rw [hsc] at h ⊢
    simp only [] at h ⊢
    have h2 : (subnAux oM cM lw rw al f cs).2 = 0 := h
    show c :: (subnAux oM cM lw rw al f cs).1 = c :: cs
    rw [ih h2]
  | case5 f c cs hm ih =>
    intro h
    rw [subnAux, hm] at h ⊢
    simp only [] at h ⊢
    have h2 : (subnAux oM cM lw rw al f cs).2 = 0 := h
    show c :: (subnAux oM cM lw rw al f cs).1 = c :: cs
    rw [ih h2]

theorem pySubnStep_spec (oM cM : List Char → Option (List Char))
    (lw rw : List Char) (al : Bool) (t : List Char) (n : Nat) :
    pySubnStep oM cM lw rw al (t, n) =
      ((pySubn oM cM lw rw al t).1, n + (pySubn oM cM lw rw al t).2) := by
  rw [pySubnStep]
  by_cases h : 0 < (pySubn oM cM lw rw al t).2
  · rw [if_pos h]
  · rw [if_neg h]
    have h0 : (pySubn oM cM lw rw al t).2 = 0 := by omega
    have h1 : (pySubn oM cM lw rw al t).1 = t :=
      subnAux_count_zero oM cM lw rw al t.length t h0
    rw [h0, h1]
    rfl

/-! Concrete inputs used by the claims. -/

def c1Input : List Char :=
  "\\section*\x7b[SECTION_01]\x7d\nHello\n\\section*\x7b[atomic_a]\x7d\nfoo\nbar\n\\end\x7bdocument\x7d".toList

def c1Nb : Notebook :=
  ⟨[metadataCell,
    mdCell "---".toList "separator_before_[SECTION_01]".toList,
    mdCell "**[SECTION_01]**\n\nHello".toList "section_1".toList,
    mdCell "**[atomic_a]**\n\nfoo\nbar".toList "section_3".toList,
    finalSepCell], 4, 5⟩

/-- Claim C1, counterexample: on the spec's example input the pipeline does
not produce the claimed cells.  The `[SECTION_01]` section keeps its body
`Hello` (the claim says it is empty), and `[atomic_a]` becomes an ordinary
section Block with body `foo\nbar` without hard line breaks (the claim says
its body is `foo  \nbar  \n`). -/
theorem c1_claim_false :
    (parse_input_to_notebook c1Input).map (fun nb => nb.cells.map Cell.source) =
      some [[metadataText], ["---".toList], ["**[SECTION_01]**\n\nHello".toList],
        ["**[atomic_a]**\n\nfoo\nbar".toList], ["---".toList]] ∧
    ¬ ([[metadataText], ["---".toList], ["**[SECTION_01]**\n\nHello".toList],
        ["**[atomic_a]**\n\nfoo\nbar".toList], ["---".toList]] =
      [[metadataText], ["---".toList], ["**[SECTION_01]**\n\n".toList],
        ["**[atomic_a]**\n\nfoo  \nbar  \n".toList], ["---".toList]]) := by
  decide

/-- Claim C1 (amended): on the input
`\section*{[SECTION_01]}\nHello\n\section*{[atomic_a]}\nfoo\nbar\n\end{document}`
the pipeline produces, in order: the metadata Block; a divider Block with id
`separator_before_[SECTION_01]`; a section Block titled `**[SECTION_01]**`
with body `Hello`; an ordinary section Block titled `**[atomic_a]**` with
body `foo\nbar` and id `section_3` (the atomic marker was consumed by the
top-level split, so no atomic Block and no empty section body arise); and
the trailing divider Block. -/
theorem c1_pipeline_cells : parse_input_to_notebook c1Input = some c1Nb := by decide

def c2Input : List Char := "Text \\[ x+y \\] more \\(a\\) end".toList

def c2Output : List Char := "Text $$ x+y $$ more $a$ end".toList

def c2StarInput : List Char := "\\begin\x7bequation*\x7dx\\end\x7bequation*\x7d".toList

/-- Claim C2 (code bug): the passes do run in the listed fixed order, each
`convert_and_count` step rewriting the cumulative text and adding its number
of replaced matches to the running total (first conjunct), and the example
input evaluates to (`Text $$ x+y $$ more $a$ end`, 2) (second conjunct).
But the claimed per-environment conversion fails for the starred names,
contradicting the program's own displayed help text: in the interpolated
pattern the `*` of `equation*` is a regex quantifier on the preceding `n`,
so a literal `\begin{equation*}x\end{equation*}` is returned unchanged with
count 0 (third conjunct), while `\begin{equatio}x\end{equatio}` is
converted to (`$$x$$`, 1) (fourth conjunct). -/
theorem c2_star_env_quantifier :
    (∀ (oM cM : List Char → Option (List Char)) (lw rw : List Char) (al : Bool)
      (t : List Char) (n : Nat),
      pySubnStep oM cM lw rw al (t, n) =
        ((pySubn oM cM lw rw al t).1, n + (pySubn oM cM lw rw al t).2)) ∧
    convert_latex_delimiters c2Input = (c2Output, 2) ∧
    convert_latex_delimiters c2StarInput = (c2StarInput, 0) ∧
    convert_latex_delimiters "\\begin\x7bequatio\x7dx\\end\x7bequatio\x7d".toList =
      ("$$x$$".toList, 1) :=
  ⟨pySubnStep_spec, by decide, by decide, by decide⟩

/-- Claim C3 (confirmed): `perform_substitutions` applies its seven literal
substitutions exactly once each, in the listed order, each to the result of
the previous one (first conjunct, by definition unfolding); and on
`\frac{1}{2} \\ \theta` it yields `\\frac{1}{2} \newline \\theta`. -/
theorem c3_perform_substitutions :
    (∀ t : List Char, perform_substitutions t =
      replaceAll "\\_".toList "_".toList
        (replaceAll "\\theta".toList "\\\\theta".toList
          (replaceAll "\\begin".toList "\\\\begin".toList
            (replaceAll "\\rfloor".toList "\\\\rfloor".toList
              (replaceAll "\\right".toList "\\\\right".toList
                (replaceAll "\\frac".toList "\\\\frac".toList
                  (replaceAll "\\\\".toList "\\newline".toList t))))))) ∧
    perform_substitutions "\\frac\x7b1\x7d\x7b2\x7d \\\\ \\theta".toList =
      "\\\\frac\x7b1\x7d\x7b2\x7d \\newline \\\\theta".toList := by
  refine ⟨fun t => ?_, by decide⟩
  rw [perform_substitutions, substitutionsList]
  simp only [List.foldl_cons, List.foldl_nil]

def c4DupInput : List Char :=
  "\\section*\x7b[SECTION_01]\x7da\\section*\x7b[SECTION_01]\x7db".toList

def c4DupNb : Notebook :=
  ⟨[metadataCell,
    mdCell "---".toList "separator_before_[SECTION_01]".toList,
    mdCell "**[SECTION_01]**\n\na".toList "section_1".toList,
    mdCell "---".toList "separator_before_[SECTION_01]".toList,
    mdCell "**[SECTION_01]**\n\nb".toList "section_3".toList,
    finalSepCell], 4, 5⟩

/-- Claim C4, counterexample: an input with two sections carrying the same
`[SECTION_01]` title produces two divider Blocks with the identical id
`separator_before_[SECTION_01]`, so Block ids are not unique for every
input. -/
theorem c4_claim_false :
    parse_input_to_notebook c4DupInput = some c4DupNb ∧
    ¬ (c4DupNb.cells.map Cell.id).Nodup := by
  decide

/-- Claim C4 (amended): every Block id in a generated Document is unique
provided no two sections share the same divider-triggering `SECTION_##`
title (the `separator_before_{title}` id is derived from the title, all
other ids are index-derived or fixed and never collide). -/
theorem c4_unique_ids :
    ∀ (t : List Char) (nb : Notebook), parse_input_to_notebook t = some nb →
      (secDivTitles (parsePairs t)).Nodup → (nb.cells.map Cell.id).Nodup := by
  intro t nb h hnd
  rw [parse_ids t nb h]
  refine List.nodup_cons.mpr ⟨?_, ?_⟩
  · intro hmem
    rcases List.mem_append.mp hmem with h1 | h1
    · rcases flatSimple_id_mem _ 1 _ h1 with ⟨j, _, hj | hj⟩ | ⟨ti, _, hti⟩
      · have h2 : (some 'm' : Option Char) = some 's' := congrArg (fun l => l[0]?) hj
        simp at h2
      · have h2 : (some 'm' : Option Char) = some 's' := congrArg (fun l => l[0]?) hj
        simp at h2
      · have h2 : (some 'm' : Option Char) = some 's' := congrArg (fun l => l[0]?) hti
        simp at h2
    · have h2 := List.mem_singleton.mp h1
      exact absurd h2 (by decide)
  · rw [List.nodup_append]
    refine ⟨flatSimple_id_nodup _ 1 hnd, List.nodup_singleton _, ?_⟩
    intro x hx1 hx2
    have hxf : x = "final_separator".toList := List.mem_singleton.mp hx2
    subst hxf
    rcases flatSimple_id_mem _ 1 _ hx1 with ⟨j, _, hj | hj⟩ | ⟨ti, _, hti⟩
    · have h2 : (some 'f' : Option Char) = some 's' := congrArg (fun l => l[0]?) hj
      simp at h2
    · have h2 : (some 'f' : Option Char) = some 's' := congrArg (fun l => l[0]?) hj
      simp at h2
    · have h2 : (some 'f' : Option Char) = some 's' := congrArg (fun l => l[0]?) hti
      simp at h2

/-- Witness for the amended C4 at the concrete example input, whose
divider-triggering titles are distinct. -/
theorem c4_unique_ids_witness :
    (secDivTitles (parsePairs c1Input)).Nodup ∧ (c1Nb.cells.map Cell.id).Nodup :=
  ⟨by decide, c4_unique_ids c1Input c1Nb (by decide) (by decide)⟩

def c5Title : List Char := "[X]".toList

def c5Raw : List Char := "\\section*\x7b[atomic_a]\x7d\nfoo".toList

/-- Claim C5, counterexample: for a section whose content splits into more
than one atomic part, the per-section logic still emits the section's raw
content as a single Block (id `section_1` below) before the atomic Blocks,
contradicting "does not emit that section's raw content as a single
Block". -/
theorem c5_claim_false :
    1 < (atomicSplit (processedContent c5Title c5Raw)).length ∧
    pairCells 1 c5Title c5Raw = some
      [mdCell "**[X]**\n\n\\section*\x7b[atomic_a]\x7d\nfoo".toList "section_1".toList,
       mdCell "**[atomic_a]**\n\nfoo".toList "[atomic_a]_1_1".toList] := by
  decide

/-- The atomic (label, content) pairs extracted from a section's content. -/
def atomicPairsOf (title raw : List Char) : List (List Char × List Char) :=
  (toPairs ((atomicSplit (processedContent title raw)).drop 1)).getD []

theorem toPairs_getD (l : List (List Char)) (h : l.length % 2 = 0) :
    toPairs l = some ((toPairs l).getD []) := by
  have := toPairs_isSome l h
  cases hp : toPairs l with
  | none => rw [hp] at this; cases this
  | some ps => simp

theorem atomicCellsOf_length (i : Nat) :
    ∀ (j : Nat) (aps : List (List Char × List Char)),
      (atomicCellsOf i j aps).length = aps.length := by
  intro j aps
  induction aps generalizing j with
  | nil => rfl
  | cons p rest ih =>
    obtain ⟨a, b⟩ := p
    rw [atomicCellsOf]
    simp [ih]

/-- Claim C5 (amended): when a section's content splits into more than one
atomic part, the per-section logic emits the optional divider, then the
section's raw content as a single Block, and additionally one Block per
atomic (label, content) pair after it. -/
theorem c5_atomic_blocks :
    ∀ (i : Nat) (title raw : List Char),
      1 < (atomicSplit (processedContent title raw)).length →
      pairCells i title raw = some ((sectionDividerCells i title ++
        [mdCell ("**".toList ++ title ++ "**\n\n".toList ++ processedContent title raw)
          ("section_".toList ++ decRepr i)]) ++
        atomicCellsOf i 1 (atomicPairsOf title raw)) ∧
      (atomicCellsOf i 1 (atomicPairsOf title raw)).length =
        (atomicPairsOf title raw).length := by
  intro i title raw h
  refine ⟨?_, atomicCellsOf_length i 1 _⟩
  have hodd : (atomicSplit (processedContent title raw)).length % 2 = 1 :=
    pySplit_length_odd matchAtomic _
  have heven : ((atomicSplit (processedContent title raw)).drop 1).length % 2 = 0 := by
    simp only [List.length_drop]
    omega
  rw [pairCells]
  simp only [if_pos h]
  rw [toPairs_getD _ heven]
  rfl

/-- Witness for the amended C5 at a concrete section with one atomic part. -/
theorem c5_atomic_blocks_witness :
    pairCells 1 c5Title c5Raw = some ((sectionDividerCells 1 c5Title ++
      [mdCell ("**".toList ++ c5Title ++ "**\n\n".toList ++ processedContent c5Title c5Raw)
        ("section_".toList ++ decRepr 1)]) ++
      atomicCellsOf 1 1 (atomicPairsOf c5Title c5Raw)) ∧
    (atomicCellsOf 1 1 (atomicPairsOf c5Title c5Raw)).length =
      (atomicPairsOf c5Title c5Raw).length :=
  c5_atomic_blocks 1 c5Title c5Raw (by decide)

def c6Nb : Notebook := ⟨[mdCell "\\(x\\)".toList "cell0".toList], 4, 5⟩

/-- Claim C6, counterexample: the guard variant is not a no-op.  Its
replacement templates denote backslash-doubled delimiters, so a Block whose
text is `\(x\)` comes back as `\\(x\\)`. -/
theorem c6_claim_false :
    escape_latex_delimiters_in_notebook c6Nb =
      Notebook.mk [mdCell "\\\\(x\\\\)".toList "cell0".toList] 4 5 ∧
    escape_latex_delimiters_in_notebook c6Nb ≠ c6Nb := by
  decide

/-- Claim C6 (amended): each of the four substitutions maps a delimiter to
its backslash-doubled form, so a Block's source text is returned unchanged
exactly when it contains none of `\(`, `\)`, `\[`, `\]`; a notebook all of
whose markdown sources are delimiter-free is returned unchanged. -/
theorem c6_escape_characterization :
    (∀ t : List Char, escapeCellText t = t ↔ noDelims t) ∧
    (∀ nb : Notebook, (∀ c ∈ nb.cells, ∀ s ∈ c.source, noDelims s) →
      escape_latex_delimiters_in_notebook nb = nb) := by
  refine ⟨escapeCellText_eq_iff, ?_⟩
  intro nb h
  rw [escape_latex_delimiters_in_notebook]
  have hcells : nb.cells.map (fun c =>
      if c.cell_type = "markdown".toList then
        { c with source := c.source.map escapeCellText }
      else c) = nb.cells := by
    apply map_id_of_mem
    intro c hc
    by_cases hct : c.cell_type = "markdown".toList
    · rw [if_pos hct]
      have hsrc : c.source.map escapeCellText = c.source := by
        apply map_id_of_mem
        intro s hs
        exact (escapeCellText_eq_iff s).mpr (h c hc s hs)
      rw [hsrc]
    · rw [if_neg hct]
  rw [hcells]

/-- Witness for the amended C6: a delimiter-free notebook is unchanged. -/
theorem c6_escape_witness :
    escape_latex_delimiters_in_notebook ⟨[mdCell "plain text".toList "cell0".toList], 4, 5⟩ =
      ⟨[mdCell "plain text".toList "cell0".toList], 4, 5⟩ :=
  c6_escape_characterization.2 _ (by decide)

/-- Claim C7, counterexample: the cleanup pass is not idempotent.  On three
consecutive backslashes one application yields two backslashes and a second
application yields one. -/
theorem c7_claim_false :
    cleanupText (cleanupText ['\\', '\\', '\\']) ≠ cleanupText ['\\', '\\', '\\'] := by
  decide

/-- Claim C7 (amended): the truncation component of the cleanup pass is
always idempotent (`truncEndDoc_idem`), and the full pass (collapse doubled
backslashes, then truncate) is idempotent on every text that contains no run
of three or more consecutive backslashes. -/
theorem c7_cleanup_idem :
    ∀ t : List Char, has3B t = false → cleanupText (cleanupText t) = cleanupText t := by
  intro t h
  have h1 : hasBB (collapseBS t) = false := hasBB_collapseBS_of_no3B t h
  have h2 : hasBB (truncEndDoc (collapseBS t)) = false := by
    obtain ⟨y, hy⟩ := truncEndDoc_pre (collapseBS t)
    exact hasBB_of_parts _ y (by rw [← hy]; exact h1)
  show truncEndDoc (collapseBS (cleanupText t)) = cleanupText t
  rw [show cleanupText t = truncEndDoc (collapseBS t) from rfl,
    collapseBS_id_of_noBB _ h2, truncEndDoc_idem]

/-- Witness for the amended C7 at a text with a doubled backslash. -/
theorem c7_cleanup_idem_witness :
    has3B "x\\\\y".toList = false ∧
      cleanupText (cleanupText "x\\\\y".toList) = cleanupText "x\\\\y".toList :=
  ⟨by decide, c7_cleanup_idem _ (by decide)⟩

/-- Claim C8 (confirmed): on any input in which the pipeline's section
marker pattern finds no match (the empty input in particular), the pipeline
does not fail and produces a Document with exactly two Blocks: the metadata
Block followed by the trailing divider Block. -/
theorem c8_no_marker :
    ∀ t : List Char, hasMatch matchSection (truncEndDoc t) = false →
      parse_input_to_notebook t = some ⟨[metadataCell, finalSepCell], 4, 5⟩ := by
  intro t h
  rw [parse_eq_flat t]
  have hsplit : sectionSplit (truncEndDoc t) = [truncEndDoc t] :=
    pySplit_no_match matchSection _ h
  have hpp : parsePairs t = [] := by
    rw [parsePairs, hsplit]
    rfl
  rw [hpp]
  decide

/-- Witness for C8 at the empty input. -/
theorem c8_no_marker_witness :
    parse_input_to_notebook [] = some ⟨[metadataCell, finalSepCell], 4, 5⟩ :=
  c8_no_marker [] (by decide)

def c9Input : List Char := "\\section*\x7b[atomic_ PROMPT]\x7dx".toList

def c9Nb : Notebook :=
  ⟨[metadataCell,
    mdCell "---".toList "separator_1".toList,
    mdCell "**[atomic_ PROMPT]**\n\nx".toList "section_1".toList,
    finalSepCell], 4, 5⟩

/-- Claim C9, counterexample: an atomic label does not always appear
"without a preceding divider".  The atomic label `[atomic_ PROMPT]` contains
PROMPT as a whole word, so its section Block is preceded by the divider
`separator_1`. -/
theorem c9_claim_false :
    parse_input_to_notebook c9Input = some c9Nb ∧
    c9Nb.cells[1]? = some (mdCell "---".toList "separator_1".toList) ∧
    c9Nb.cells[2]? = some (mdCell "**[atomic_ PROMPT]**\n\nx".toList "section_1".toList) := by
  decide

/-- Claim C9 (amended): every match of the atomic-marker pattern is a match
of the top-level section pattern (same label, same rest), so atomic markers
are consumed at the top level; consequently, in every generated Document,
the nested atomic split of every section's processed content yields exactly
one part, and every cell id is `metadata_cell`, `final_separator`, or one of
the `separator_before_…`, `separator_…`, `section_…` shapes — in particular
no atomic-style id `<atomicLabel>_<i>_<j>` (which would begin with
`[atomic_`) ever appears.  An atomic label appears as an ordinary section
Block, with a divider exactly when its label matches the divider rules. -/
theorem c9_atomic_consumed_at_top :
    (∀ (s l r : List Char), matchAtomic s = some (l, r) → matchSection s = some (l, r)) ∧
    (∀ (t : List Char) (nb : Notebook), parse_input_to_notebook t = some nb →
      (∀ p ∈ parsePairs t,
        atomicSplit (processedContent p.1 p.2) = [processedContent p.1 p.2]) ∧
      (∀ x ∈ nb.cells.map Cell.id,
        x = "metadata_cell".toList ∨ x = "final_separator".toList ∨
        (∃ ti, x = "separator_before_".toList ++ ti) ∨
        (∃ j, x = "separator_".toList ++ decRepr j) ∨
        (∃ j, x = "section_".toList ++ decRepr j)) ∧
      (∀ x ∈ nb.cells.map Cell.id, ∀ rest : List Char,
        x ≠ "[atomic_".toList ++ rest)) := by
  refine ⟨matchAtomic_imp_matchSection, ?_⟩
  intro t nb h
  have hshape : ∀ x ∈ nb.cells.map Cell.id,
      x = "metadata_cell".toList ∨ x = "final_separator".toList ∨
      (∃ ti, x = "separator_before_".toList ++ ti) ∨
      (∃ j, x = "separator_".toList ++ decRepr j) ∨
      (∃ j, x = "section_".toList ++ decRepr j) := by
    intro x hx
    rw [parse_ids t nb h] at hx
    rcases List.mem_cons.mp hx with rfl | hx2
    · exact Or.inl rfl
    rcases List.mem_append.mp hx2 with h3 | h4
    · rcases flatSimple_id_mem _ 1 _ h3 with ⟨j, _, hj | hj⟩ | ⟨ti, _, hti⟩
      · exact Or.inr (Or.inr (Or.inr (Or.inr ⟨j, hj⟩)))
      · exact Or.inr (Or.inr (Or.inr (Or.inl ⟨j, hj⟩)))
      · exact Or.inr (Or.inr (Or.inl ⟨ti, hti⟩))
    · exact Or.inr (Or.inl (List.mem_singleton.mp h4))
  refine ⟨?_, hshape, ?_⟩
  · intro p hp
    exact atomicSplit_no_match _ (parsePairs_no_atomic t p hp)
  · intro x hx rest hcon
    rcases hshape x hx with h1 | h1 | ⟨ti, h1⟩ | ⟨j, h1⟩ | ⟨j, h1⟩
    · rw [h1] at hcon
      have h2 : (some 'm' : Option Char) = some '[' := congrArg (fun l => l[0]?) hcon
      simp at h2
    · rw [h1] at hcon
      have h2 : (some 'f' : Option Char) = some '[' := congrArg (fun l => l[0]?) hcon
      simp at h2
    · rw [h1] at hcon
      have h2 : (some 's' : Option Char) = some '[' := congrArg (fun l => l[0]?) hcon
      simp at h2
    · rw [h1] at hcon
      have h2 : (some 's' : Option Char) = some '[' := congrArg (fun l => l[0]?) hcon
      simp at h2
    · rw [h1] at hcon
      have h2 : (some 's' : Option Char) = some '[' := congrArg (fun l => l[0]?) hcon
      simp at h2

/-- Witness for the amended C9: the atomic split of the first section's
processed content on the example input yields exactly one part. -/
theorem c9_atomic_consumed_witness :
    atomicSplit (processedContent "[SECTION_01]".toList "\nHello\n".toList) =
      [processedContent "[SECTION_01]".toList "\nHello\n".toList] :=
  ((c9_atomic_consumed_at_top.2 c1Input c1Nb (by decide)).1)
    ("[SECTION_01]".toList, "\nHello\n".toList) (by decide)

/-- Claim C10 (confirmed): splitting on the one-group section pattern always
yields a list of odd length, so the pair loop's index `i + 1` accesses are
in range and `parse_input_to_notebook` never fails with an index error: it
returns a Document for every input. -/
theorem c10_split_odd_parse_total :
    ∀ t : List Char, (sectionSplit t).length % 2 = 1 ∧
      (parse_input_to_notebook t).isSome = true := by
  intro t
  refine ⟨pySplit_length_odd matchSection t, ?_⟩
  rw [parse_eq_flat t]
  rfl
